import Mathlib

/-!
Verification of the links-client Python repository: a shallow embedding of
`links_client/api/ilinks.py` and `links_client/api/recursive_links.py`,
together with theorems settling the frozen claims about the specification.

Conventions of the embedding:
* Python values that flow through the recursive API (`List[Any]` items) are
  modelled by `PyVal` (`None`, integers, lists, string-keyed dicts).
* Python dicts are modelled as insertion-ordered association lists, with
  assignment (`d[k] = v`) and `d.update(other)` modelled faithfully
  (existing keys keep their position, new keys are appended).
* The external store (`LinkDBService`, not part of the repository sources)
  is modelled from the spec's Store Interface: `readAllLinks` returns the
  links in order, `createLink` appends a link with a fresh id,
  `updateLink` rewrites the link with the given id, `deleteLink` removes it.
* Python exceptions are modelled with `Except PyErr`; every operation also
  returns the resulting store, so an error path that raises before mutating
  returns the store unchanged.
* Unbounded Python recursion is modelled with an explicit fuel parameter;
  a result of `none` means the recursion did not complete within the given
  depth (for terminating inputs every sufficiently large fuel gives `some`).
-/

/-- Python values handled by the recursive API: `None`, `int`, `list`, `dict`.
`PyVal.none` models the Python object `None` (used both as a value and as the
`current_id is None` sentinel in `_create_sequence_from_list`, exactly as in
the source). -/
inductive PyVal where
  | none : PyVal
  | int : Int → PyVal
  | list : List PyVal → PyVal
  | dict : List (String × PyVal) → PyVal

/-- A stored link: `{id, source, target}`.  The id is an integer; source and
target hold whatever value the client passed to `create` (the Python code
does not enforce that they are integers). -/
structure Link where
  id : Int
  source : PyVal
  target : PyVal

/-- Modelled from the spec: the state of the external `LinkDBService` store
(the service itself is not among the repository sources).  `links` is the
ordered sequence `readAllLinks` returns; `nextId` is the next fresh id
`createLink` will assign. -/
structure Store where
  links : List Link
  nextId : Int

/-- Python exceptions raised by the embedded code: `ValueError msg`
(used for both the InvalidArgument and NotFound conditions, with the
message strings from the source) and `StopIteration`
(from `next(iter(...))` on an empty dict). -/
inductive PyErr where
  | valueError : String → PyErr
  | stopIteration : PyErr

/-- A change notification passed to a handler: `{before, after}`. -/
structure Change where
  before : Option Link
  after : Option Link

/-- Modelled from the spec: `readAllLinks() → ordered sequence of Link`. -/
def read_all_links (st : Store) : List Link := st.links

/-- Modelled from the spec: `createLink(source, target) → Link` with a fresh
id; the new link is appended to the enumeration order. -/
def create_link (st : Store) (s t : PyVal) : Link × Store :=
  (⟨st.nextId, s, t⟩, ⟨st.links ++ [⟨st.nextId, s, t⟩], st.nextId + 1⟩)

/-- Modelled from the spec: `updateLink(id, newSource, newTarget) → Link`;
rewrites the link with the given id, failing if it is absent. -/
def update_link (st : Store) (i : Int) (s t : PyVal) :
    Except PyErr (Link × Store) :=
  if st.links.any (fun l => l.id == i) then
    .ok (⟨i, s, t⟩, ⟨st.links.map (fun l => if l.id == i then ⟨i, s, t⟩ else l), st.nextId⟩)
  else .error (.valueError ("link not found"))

/-- Modelled from the spec: `deleteLink(id) → void`; fails `NotFound` if the
id is absent. -/
def delete_link (st : Store) (i : Int) : Except PyErr Store :=
  if st.links.any (fun l => l.id == i) then
    .ok ⟨st.links.filter (fun l => !(l.id == i)), st.nextId⟩
  else .error (.valueError ("link not found"))

/-- Python `link["source"] == r` where `r` is an integer restriction value:
true exactly when the stored value is the integer `r`. -/
def pvEqInt (v : PyVal) (n : Int) : Bool :=
  match v with
  | .int m => m == n
  | _ => false

/-- `ILinks._filter_links` from `ilinks.py`: keep the links matched by the
restriction; arity 1 filters by id, arity 2 by (source, target), arity ≥ 3
by (id, source, target); the value 0 (`LinkConstants.ANY`) matches anything;
an absent or empty restriction keeps everything. -/
def filter_links (links : List Link) (restriction : Option (List Int)) :
    List Link :=
  match restriction with
  | Option.none => links
  | some [] => links
  | some [a] =>
      links.filter (fun l => a == 0 || l.id == a)
  | some [a, b] =>
      links.filter (fun l =>
        (a == 0 || pvEqInt l.source a) && (b == 0 || pvEqInt l.target b))
  | some (a :: b :: c :: _) =>
      links.filter (fun l =>
        (a == 0 || l.id == a) && (b == 0 || pvEqInt l.source b) &&
          (c == 0 || pvEqInt l.target c))

/-- `ILinks.count` from `ilinks.py`: with a falsy restriction (absent or
empty) the total number of links, otherwise the number of filtered links. -/
def ilinks_count (restriction : Option (List Int)) (st : Store) : Nat :=
  match restriction with
  | Option.none => (read_all_links st).length
  | some [] => (read_all_links st).length
  | some r => (filter_links (read_all_links st) (some r)).length

/-- `ILinks.create` from `ilinks.py`.  Returns the result (created id or
raised error), the resulting store, and the list of change notifications the
handler would receive.  Note the source takes `substitution[0]` and
`substitution[1]` as source and target regardless of the substitution's
length. -/
def ilinks_create (substitution : Option (List PyVal)) (st : Store) :
    Except PyErr Int × Store × List Change :=
  match substitution with
  | some (s :: t :: _) =>
      let p := create_link st s t
      (.ok p.1.id, p.2, [⟨Option.none, some p.1⟩])
  | _ =>
      (.error (.valueError ("Substitution must contain at least [source, target]")), st, [])

/-- `ILinks.update` from `ilinks.py`: requires a truthy restriction and a
substitution of at least two elements, updates the first matched link (new
source/target are `substitution[0..1]` for a 2-element substitution and
`substitution[1..2]` otherwise), and notifies the handler with the pre- and
post-update link. -/
def ilinks_update (restriction : Option (List Int))
    (substitution : Option (List PyVal)) (st : Store) :
    Except PyErr Int × Store × List Change :=
  match restriction with
  | Option.none => (.error (.valueError ("Restriction required for update")), st, [])
  | some [] => (.error (.valueError ("Restriction required for update")), st, [])
  | some r =>
    match substitution with
    | some (s :: t :: rest) =>
      match filter_links (read_all_links st) (some r) with
      | [] => (.error (.valueError ("No links found matching restriction")), st, [])
      | l :: _ =>
        let nst := match rest with
          | [] => (s, t)
          | u :: _ => (t, u)
        match update_link st l.id nst.1 nst.2 with
        | .ok p => (.ok p.1.id, p.2, [⟨some l, some p.1⟩])
        | .error e => (.error e, st, [])
    | _ =>
      (.error (.valueError ("Substitution must contain at least [source, target]")), st, [])

/-- `ILinks.delete` from `ilinks.py`: requires a truthy restriction, deletes
the first matched link, returning its id and notifying the handler with the
deleted link. -/
def ilinks_delete (restriction : Option (List Int)) (st : Store) :
    Except PyErr Int × Store × List Change :=
  match restriction with
  | Option.none => (.error (.valueError ("Restriction required for delete")), st, [])
  | some [] => (.error (.valueError ("Restriction required for delete")), st, [])
  | some r =>
    match filter_links (read_all_links st) (some r) with
    | [] => (.error (.valueError ("No links found matching restriction")), st, [])
    | l :: _ =>
      match delete_link st l.id with
      | .ok st' => (.ok l.id, st', [⟨some l, Option.none⟩])
      | .error e => (.error e, st, [])

/-- Python dict assignment `d[k] = v`: an existing key keeps its position and
gets the new value; a new key is appended (insertion order). -/
def dictSet (d : List (String × PyVal)) (k : String) (v : PyVal) :
    List (String × PyVal) :=
  match d with
  | [] => [(k, v)]
  | (k', v') :: rest =>
      if k' = k then (k, v) :: rest else (k', v') :: dictSet rest k v

/-- Python `d.update(other)`: assign every (key, value) of `other` in order. -/
def dictUpdate (d other : List (String × PyVal)) : List (String × PyVal) :=
  other.foldl (fun m kv => dictSet m kv.1 kv.2) d

/-- `isinstance(v, dict)`. -/
def PyVal.isDict : PyVal → Bool
  | .dict _ => true
  | _ => false

/-- `RecursiveLinks._has_nested_dict` from `recursive_links.py`: whether any
top-level item of the list is a dict. -/
def has_nested_dict (lst : List PyVal) : Bool :=
  lst.any PyVal.isDict

/-- The reference map built by `create_from_nested_dict`: an
insertion-ordered Python dict from labels to the value recorded for them. -/
abbrev RefMap := List (String × PyVal)

/-- The loop body of `RecursiveLinks.create_from_nested_dict`: for each
(label, value) pair, a list value is turned into a sequence id via
`_create_sequence_from_list` (passed the accumulating reference map,
abstracted here as the function `recSeq`) and recorded under the label; any
other value is skipped with a warning.  `none` = the nested recursion ran
out of fuel. -/
def dictLoop
    (recSeq : List PyVal → RefMap → Store →
      Option (Except PyErr (PyVal × RefMap) × Store)) :
    List (String × PyVal) → RefMap → Store →
      Option (Except PyErr RefMap × Store)
  | [], rm, st => some (.ok rm, st)
  | (ref, v) :: rest, rm, st =>
    match v with
    | .list l =>
      match recSeq l rm st with
      | Option.none => Option.none
      | some (.error e, st') => some (.error e, st')
      | some (.ok (linkId, rm'), st') =>
          dictLoop recSeq rest (dictSet rm' ref linkId) st'
    | _ => dictLoop recSeq rest rm st

/-- The chain-building loop of `RecursiveLinks._create_sequence_from_list`
(the `for item in lst` loop): `cur` is `current_id` (with `PyVal.none`
standing for Python `None`, exactly as the source tests `is None`), `rm` the
caller's reference map.  A dict item is built with a fresh
`create_from_nested_dict` call whose first created reference continues the
chain and whose references are merged into `rm`; a list item recurses with
`rm`; a scalar continues the chain directly. -/
def seqLoop
    (recSeq : List PyVal → RefMap → Store →
      Option (Except PyErr (PyVal × RefMap) × Store)) :
    List PyVal → PyVal → RefMap → Store →
      Option (Except PyErr (PyVal × RefMap) × Store)
  | [], cur, rm, st => some (.ok (cur, rm), st)
  | item :: rest, cur, rm, st =>
    match item with
    | .dict entries =>
      match dictLoop recSeq entries [] st with
      | Option.none => Option.none
      | some (.error e, st') => some (.error e, st')
      | some (.ok nrefs, st') =>
        match nrefs.head? with
        | Option.none => some (.error .stopIteration, st')
        | some (_, firstRef) =>
          match cur with
          | .none => seqLoop recSeq rest firstRef (dictUpdate rm nrefs) st'
          | _ =>
            match ilinks_create (some [cur, firstRef]) st' with
            | (.ok i, st'', _) =>
                seqLoop recSeq rest (.int i) (dictUpdate rm nrefs) st''
            | (.error e, st'', _) => some (.error e, st'')
    | .list l =>
      match recSeq l rm st with
      | Option.none => Option.none
      | some (.error e, st') => some (.error e, st')
      | some (.ok (nestedId, rm'), st') =>
        match cur with
        | .none => seqLoop recSeq rest nestedId rm' st'
        | _ =>
          match ilinks_create (some [cur, nestedId]) st' with
          | (.ok i, st'', _) => seqLoop recSeq rest (.int i) rm' st''
          | (.error e, st'', _) => some (.error e, st'')
    | _ =>
      match cur with
      | .none => seqLoop recSeq rest item rm st
      | _ =>
        match ilinks_create (some [cur, item]) st with
        | (.ok i, st', _) => seqLoop recSeq rest (.int i) rm st'
        | (.error e, st', _) => some (.error e, st')

/-- `RecursiveLinks._create_sequence_from_list` from `recursive_links.py`,
with fuel bounding the recursion depth: an empty list raises; a 2-element
list with no top-level dict creates a single link `(lst[0], lst[1])`; any
other list is folded into a left-associated chain by `seqLoop`.  The result
is the sequence id (a `PyVal`: the created link's id, or the lone scalar
itself) together with the updated reference map. -/
def createSeqF : Nat → List PyVal → RefMap → Store →
    Option (Except PyErr (PyVal × RefMap) × Store)
  | 0, _, _, _ => Option.none
  | fuel+1, lst, rm, st =>
    match lst with
    | [] => some (.error (.valueError ("Cannot create sequence from empty list")), st)
    | [a, b] =>
      if has_nested_dict [a, b] then
        seqLoop (fun l r s => createSeqF fuel l r s) [a, b] .none rm st
      else
        match ilinks_create (some [a, b]) st with
        | (.ok i, st', _) => some (.ok (.int i, rm), st')
        | (.error e, st', _) => some (.error e, st')
    | lst => seqLoop (fun l r s => createSeqF fuel l r s) lst .none rm st

/-- `RecursiveLinks.create_from_nested_dict` from `recursive_links.py`, with
fuel bounding the recursion depth: builds a fresh reference map by running
`dictLoop` over the dict's entries. -/
def create_from_nested_dict (fuel : Nat) (entries : List (String × PyVal))
    (st : Store) : Option (Except PyErr RefMap × Store) :=
  dictLoop (fun l r s => createSeqF fuel l r s) entries [] st

/-- The characters Python `str.strip()` removes (Python string whitespace). -/
def pyIsSpace (c : Char) : Bool :=
  c = ' ' || c = '\t' || c = '\n' || c = '\r' || c = '\x0b' || c = '\x0c'

/-- Python `s.strip()`: drop leading and trailing whitespace. -/
def pyStrip (s : List Char) : List Char :=
  ((s.dropWhile pyIsSpace).reverse.dropWhile pyIsSpace).reverse

/-- The decimal digit character for `n < 10` (used to model Python's decimal
rendering of integers in `str(item)`). -/
def digChar (n : Nat) : Char :=
  if n = 0 then '0' else if n = 1 then '1' else if n = 2 then '2'
  else if n = 3 then '3' else if n = 4 then '4' else if n = 5 then '5'
  else if n = 6 then '6' else if n = 7 then '7' else if n = 8 then '8' else '9'

/-- Build the decimal digits of `n` in front of `acc` (most significant
first); the fuel is always sufficient at `n + 1`. -/
def natDigitsGo : Nat → Nat → List Char → List Char
  | 0, _, acc => acc
  | fuel+1, n, acc =>
      if n < 10 then digChar n :: acc
      else natDigitsGo fuel (n / 10) (digChar (n % 10) :: acc)

/-- The decimal digit characters of a natural number. -/
def natChars (n : Nat) : List Char := natDigitsGo (n + 1) n []

/-- Python `str(i)` for an integer: minus sign for negatives, then the
decimal digits. -/
def intChars (i : Int) : List Char :=
  if i < 0 then '-' :: natChars i.natAbs else natChars i.natAbs

/-- The numeric value of a digit character. -/
def digVal (c : Char) : Nat := c.toNat - 48

/-- The digit-consuming loop of Python `int(str)`: decimal digits with
single underscores allowed strictly between digits. -/
def pyDigitsLoop : Nat → List Char → Option Nat
  | acc, [] => some acc
  | acc, c :: cs =>
    if c.isDigit then pyDigitsLoop (acc * 10 + digVal c) cs
    else if c = '_' then
      match cs with
      | c2 :: cs2 =>
          if c2.isDigit then pyDigitsLoop (acc * 10 + digVal c2) cs2
          else Option.none
      | [] => Option.none
    else Option.none

/-- Python `int(str)` on an unsigned token: a nonempty digit string (with
internal underscores), or failure. -/
def pyNatParse : List Char → Option Nat
  | c :: cs => if c.isDigit then pyDigitsLoop (digVal c) cs else Option.none
  | [] => Option.none

/-- Python `int(str)` on a stripped token: an optional single sign followed
by digits; `none` models the `ValueError`. -/
def pyIntParse (cs : List Char) : Option Int :=
  match cs with
  | '-' :: rest => (pyNatParse rest).map (fun n => -(n : Int))
  | '+' :: rest => (pyNatParse rest).map (fun n => (n : Int))
  | rest => (pyNatParse rest).map (fun n => (n : Int))

/-- A notation value: the items of the nested lists that
`parse_links_notation` returns and `to_links_notation` consumes
(a Python `int`, or a nested list of further values). -/
inductive NVal where
  | atom : Int → NVal
  | list : List NVal → NVal

mutual
/-- The inner `convert` of `RecursiveLinks.to_links_notation`: an integer
renders as its decimal string, a list as its space-joined converted elements
in parentheses. -/
def convert : NVal → List Char
  | .atom n => intChars n
  | .list l => '(' :: convertSeq l ++ [')']

/-- Python `' '.join(convert(el) for el in item)` inside
`RecursiveLinks.to_links_notation`. -/
def convertSeq : List NVal → List Char
  | [] => []
  | [v] => convert v
  | v :: vs => convert v ++ ' ' :: convertSeq vs
end

/-- `RecursiveLinks.to_links_notation` from `recursive_links.py`: space-join
the converted items and wrap the whole in one pair of parentheses. -/
def to_links_notation (l : List NVal) : List Char :=
  '(' :: convertSeq l ++ [')']

mutual
/-- The inner `convert` of `RecursiveLinks.to_links_notation_with_refs`:
a dict renders its entries labelled by their keys and space-joined without
extra wrapping; a list renders as `"(label: elems)"` when a label is
attached and as `"(elems)"` otherwise; an integer renders as its decimal
string and `None` as `"None"` (Python `str`). -/
def convertRef : Option String → PyVal → List Char
  | _, .dict entries => convertRefDict entries
  | some r, .list l => '(' :: (r.toList ++ ':' :: ' ' :: convertRefSeq l) ++ [')']
  | Option.none, .list l => '(' :: convertRefSeq l ++ [')']
  | _, .int n => intChars n
  | _, .none => "None".toList

/-- `' '.join` over a dict's converted (label, value) entries. -/
def convertRefDict : List (String × PyVal) → List Char
  | [] => []
  | [(k, v)] => convertRef (some k) v
  | (k, v) :: rest => convertRef (some k) v ++ ' ' :: convertRefDict rest

/-- `' '.join` over a list's converted (unlabelled) elements. -/
def convertRefSeq : List PyVal → List Char
  | [] => []
  | [v] => convertRef Option.none v
  | v :: vs => convertRef Option.none v ++ ' ' :: convertRefSeq vs
end

/-- `RecursiveLinks.to_links_notation_with_refs` from `recursive_links.py`:
convert every (label, value) entry and wrap the space-joined parts in one
pair of parentheses. -/
def to_links_notation_with_refs (entries : List (String × PyVal)) : List Char :=
  '(' :: convertRefDict entries ++ [')']

/-- The character scan of `RecursiveLinks.parse_links_notation` (its
`for char in notation` loop) over the remaining characters, carrying
`result`, `current` and `depth`; `rec` is the recursive parse applied to a
completed balanced group ( `none` = that recursion ran out of fuel).
`'('` and `')'` adjust the depth and accumulate; a `')'` that returns the
depth to 0 recursively parses the stripped buffer as one nested list; a
space at depth 0 flushes the buffer as one token, appending its integer
value or silently dropping it; end of input flushes the same way. -/
def scanLoop (rec : List Char → Option (List NVal)) :
    List Char → List NVal → List Char → Int → Option (List NVal)
  | [], res, cur, _ =>
    if (pyStrip cur).isEmpty then some res
    else
      match pyIntParse (pyStrip cur) with
      | some n => some (res ++ [.atom n])
      | Option.none => some res
  | c :: cs, res, cur, d =>
    if c = '(' then scanLoop rec cs res (cur ++ ['(']) (d + 1)
    else if c = ')' then
      if d - 1 = 0 ∧ ¬(pyStrip (cur ++ [')'])).isEmpty then
        match rec (pyStrip (cur ++ [')'])) with
        | Option.none => Option.none
        | some v => scanLoop rec cs (res ++ [.list v]) [] (d - 1)
      else scanLoop rec cs res (cur ++ [')']) (d - 1)
    else if c = ' ' ∧ d = 0 then
      if (pyStrip cur).isEmpty then scanLoop rec cs res cur d
      else
        match pyIntParse (pyStrip cur) with
        | some n => scanLoop rec cs (res ++ [.atom n]) [] d
        | Option.none => scanLoop rec cs res [] d
    else scanLoop rec cs res (cur ++ [c]) d

/-- `RecursiveLinks.parse_links_notation` from `recursive_links.py`, with
fuel bounding the recursion depth: strip the input, strip one pair of outer
parentheses when the text both starts with `'('` and ends with `')'`, then
scan.  `none` means the recursion did not complete within `fuel` nested
parses (the Python original recurses without any bound). -/
def parseLN : Nat → List Char → Option (List NVal)
  | 0, _ => Option.none
  | fuel+1, s =>
    let s1 := pyStrip s
    let s2 :=
      if s1.head? == some '(' && s1.getLast? == some ')' then
        pyStrip ((s1.drop 1).dropLast)
      else s1
    scanLoop (fun t => parseLN fuel t) s2 [] [] 0

/-- The claim's matching predicate for `count`: every restriction field
either is the Any sentinel 0 or equals the corresponding stored field, with
arity 1 = `[id]`, arity 2 = `[source, target]`, arity ≥ 3 =
`[id, source, target]` (fields beyond the third are ignored); the empty
restriction matches everything vacuously. -/
def matchesRestriction (r : List Int) (l : Link) : Bool :=
  match r with
  | [] => true
  | [a] => a == 0 || l.id == a
  | [a, b] => (a == 0 || pvEqInt l.source a) && (b == 0 || pvEqInt l.target b)
  | a :: b :: c :: _ =>
      (a == 0 || l.id == a) && (b == 0 || pvEqInt l.source b) &&
        (c == 0 || pvEqInt l.target c)

/-- The spec's running example dict
`{"1": [1, {"2": [5, 6]}, 3, 4]}`. -/
def exampleNestedDict : List (String × PyVal) :=
  [("1", .list [.int 1, .dict [("2", .list [.int 5, .int 6])], .int 3, .int 4])]

/-- A Python value containing no dict anywhere (at any nesting depth). -/
inductive DictFree : PyVal → Prop
  | none : DictFree .none
  | int (n : Int) : DictFree (.int n)
  | list (l : List PyVal) (h : ∀ v ∈ l, DictFree v) : DictFree (.list l)

/-- A notation value in the claim's round-trip domain: an integer, or a
2-element list of further such values (arbitrary nesting depth). -/
inductive GoodPair : NVal → Prop
  | atom (n : Int) : GoodPair (.atom n)
  | pair (a b : NVal) (ha : GoodPair a) (hb : GoodPair b) :
      GoodPair (.list [a, b])

mutual
/-- Nesting depth of a notation value (0 for atoms): the number of nested
parse levels its serialization needs. -/
def NVal.depth : NVal → Nat
  | .atom _ => 0
  | .list l => NVal.depthList l + 1

/-- Maximal nesting depth of a sequence of notation values. -/
def NVal.depthList : List NVal → Nat
  | [] => 0
  | v :: vs => max v.depth (NVal.depthList vs)
end

/-- Paren-depth contribution of one character in the parser's scan. -/
def chDelta (c : Char) : Int :=
  if c = '(' then 1 else if c = ')' then -1 else 0

/-- The paren depth after scanning `cs` starting from depth `d`. -/
def endDepth (cs : List Char) (d : Int) : Int :=
  cs.foldl (fun a c => a + chDelta c) d

/-- Scanning `cs` from depth `d` keeps the depth at least 1 after every
character (so the scan neither flushes a token nor closes a group while
inside `cs`). -/
def Neutral : List Char → Int → Prop
  | [], _ => True
  | c :: cs, d => 1 ≤ d + chDelta c ∧ Neutral cs (d + chDelta c)

/-- A character that the scan simply accumulates at depth 0: not a paren
and not a space. -/
def litChar (c : Char) : Bool :=
  !(c = '(') && !(c = ')') && !(pyIsSpace c)

/-- Mapping a function that fixes every element of a list is the identity. -/
theorem map_noop {α : Type} (f : α → α) :
    ∀ (xs : List α), (∀ k ∈ xs, f k = k) → xs.map f = xs := by
  intro xs h
  induction xs with
  | nil => rfl
  | cons x xs ih =>
    simp only [List.map_cons, h x (List.mem_cons_self x xs)]
    rw [ih (fun k hk => h k (List.mem_cons_of_mem x hk))]

/-- A dict-free value is not a dict. -/
theorem dictFree_not_isDict {v : PyVal} (h : DictFree v) : v.isDict = false := by
  cases h <;> rfl

/-- Shared computation for `ilinks_update` on a matched restriction: with a
truthy restriction whose first match is `l`, the unique link carrying `l`'s
id, updating with substitution `s :: t :: rest` replaces exactly `l` (in
place) by the link with the substituted source and target, returns `l`'s id,
and hands the handler the pre- and post-update link. -/
theorem ilinks_update_go (st : Store) (r : List Int) (s t ns nt : PyVal)
    (rest : List PyVal) (l : Link) (ls pre post : List Link)
    (hr : r ≠ [])
    (hf : filter_links (read_all_links st) (some r) = l :: ls)
    (hd : st.links = pre ++ l :: post)
    (hpre : ∀ k ∈ pre, k.id ≠ l.id)
    (hpost : ∀ k ∈ post, k.id ≠ l.id)
    (hnst : (match rest with | [] => (s, t) | u :: _ => (t, u)) = (ns, nt)) :
    ilinks_update (some r) (some (s :: t :: rest)) st =
      (.ok l.id, ⟨pre ++ ⟨l.id, ns, nt⟩ :: post, st.nextId⟩,
       [⟨some l, some ⟨l.id, ns, nt⟩⟩]) := by
  obtain ⟨a, r', rfl⟩ : ∃ a r', r = a :: r' := by
    cases r with
    | nil => exact absurd rfl hr
    | cons a r' => exact ⟨a, r', rfl⟩
  have hmem : l ∈ st.links := by
    rw [hd]; exact List.mem_append_right _ (List.mem_cons_self _ _)
  have hany : st.links.any (fun k => k.id == l.id) = true :=
    List.any_eq_true.mpr ⟨l, hmem, by simp⟩
  have hmap : st.links.map (fun k => if k.id == l.id then (⟨l.id, ns, nt⟩ : Link) else k) =
      pre ++ ⟨l.id, ns, nt⟩ :: post := by
    rw [hd, List.map_append, List.map_cons]
    rw [map_noop _ pre (fun k hk => by simp [hpre k hk])]
    rw [map_noop _ post (fun k hk => by simp [hpost k hk])]
    simp
  simp only [ilinks_update, hf, update_link, hany, if_true, hnst, hmap]

/-- Whenever `ilinks_delete` raises, the store is returned unchanged and the
handler is never called. -/
theorem ilinks_delete_error_state (restriction : Option (List Int))
    (st : Store) (e : PyErr)
    (h : (ilinks_delete restriction st).1 = .error e) :
    (ilinks_delete restriction st).2.1 = st ∧
    (ilinks_delete restriction st).2.2 = [] := by
  match restriction with
  | Option.none => exact ⟨rfl, rfl⟩
  | some [] => exact ⟨rfl, rfl⟩
  | some (a :: r') =>
    rcases hf : filter_links (read_all_links st) (some (a :: r')) with _ | ⟨l, ls⟩
    · unfold ilinks_delete
      split <;> simp_all
    · rcases hdl : delete_link st l.id with e' | st'
      · unfold ilinks_delete at h ⊢
        split at h <;> simp_all
      · unfold ilinks_delete at h ⊢
        split at h <;> simp_all

/-- Whenever `ilinks_update` raises, the store is returned unchanged and the
handler is never called. -/
theorem ilinks_update_error_state (restriction : Option (List Int))
    (substitution : Option (List PyVal)) (st : Store) (e : PyErr)
    (h : (ilinks_update restriction substitution st).1 = .error e) :
    (ilinks_update restriction substitution st).2.1 = st ∧
    (ilinks_update restriction substitution st).2.2 = [] := by
  match restriction with
  | Option.none => exact ⟨rfl, rfl⟩
  | some [] => exact ⟨rfl, rfl⟩
  | some (a :: r') =>
    match substitution with
    | Option.none => exact ⟨rfl, rfl⟩
    | some [] => exact ⟨rfl, rfl⟩
    | some [x] => exact ⟨rfl, rfl⟩
    | some (s :: t :: rest) =>
      rcases hf : filter_links (read_all_links st) (some (a :: r')) with _ | ⟨l, ls⟩
      · unfold ilinks_update
        split <;> simp_all
      · match rest with
        | [] =>
          rcases hdl : update_link st l.id s t with e' | p
          · unfold ilinks_update at h ⊢
            split at h <;> simp_all
          · unfold ilinks_update at h ⊢
            split at h <;> simp_all
        | u :: rest' =>
          rcases hdl : update_link st l.id t u with e' | p
          · unfold ilinks_update at h ⊢
            split at h <;> simp_all
          · unfold ilinks_update at h ⊢
            split at h <;> simp_all

/-- Claim C3: for every store and every restriction of arity 0 (absent),
1 (`[id]`), 2 (`[source, target]`) or ≥ 3 (`[id, source, target]`),
`count` equals the number of stored links for which every restriction field
either is the Any sentinel 0 or equals the corresponding stored field; with
no restriction it equals the total number of links. -/
theorem count_matches_restriction (st : Store) (r : List Int) :
    ilinks_count (some r) st =
      (st.links.filter (fun l => matchesRestriction r l)).length ∧
    ilinks_count Option.none st = st.links.length := by
  constructor
  · match r with
    | [] => simp [ilinks_count, read_all_links, matchesRestriction]
    | [a] => rfl
    | [a, b] => rfl
    | a :: b :: c :: rest => rfl
  · rfl

/-- Claim C4, counterexample: on the empty store, `create([9, 5, 7])`
produces the link `(id 1, source 9, target 5)` — using the first two
substitution elements — and not the link `(id 1, source 5, target 7)` the
claim (which says the first element of a 3-element substitution is ignored)
would require. -/
theorem create_three_element_counterexample :
    (ilinks_create (some [.int 9, .int 5, .int 7]) ⟨[], 1⟩).2.1.links =
        [⟨1, .int 9, .int 5⟩] ∧
    (⟨1, .int 9, .int 5⟩ : Link) ≠ ⟨1, .int 5, .int 7⟩ := ⟨rfl, by simp⟩

/-- Claim C4, amended: for every substitution of at least 2 elements
(including 3-element `[x, s, t]` forms), `create` creates a new link whose
source is the FIRST element and whose target is the SECOND (all later
elements are ignored), returns the new link's id, and passes
`{before: null, after: the new link}` to the handler; a substitution of
fewer than 2 elements raises InvalidArgument. -/
theorem create_uses_first_two :
    (∀ (st : Store) (x y : PyVal) (rest : List PyVal),
      ilinks_create (some (x :: y :: rest)) st =
        (.ok st.nextId,
         ⟨st.links ++ [⟨st.nextId, x, y⟩], st.nextId + 1⟩,
         [⟨Option.none, some ⟨st.nextId, x, y⟩⟩]))
  ∧ (∀ (st : Store) (sub : List PyVal), sub.length < 2 →
      ilinks_create (some sub) st =
        (.error (.valueError ("Substitution must contain at least [source, target]")), st, []))
  ∧ ∀ st : Store, ilinks_create Option.none st =
      (.error (.valueError ("Substitution must contain at least [source, target]")), st, []) := by
  refine ⟨fun st x y rest => rfl, fun st sub h => ?_, fun st => rfl⟩
  match sub with
  | [] => rfl
  | [x] => rfl
  | x :: y :: rest => simp at h; omega

/-- Witness for `create_uses_first_two` at the one-element substitution
`[1]` on the empty store. -/
theorem create_uses_first_two_witness :
    ([PyVal.int 1].length < 2) ∧
    ilinks_create (some [PyVal.int 1]) ⟨[], 1⟩ =
      (.error (.valueError ("Substitution must contain at least [source, target]")),
       ⟨[], 1⟩, []) :=
  ⟨by decide, create_uses_first_two.2.1 ⟨[], 1⟩ [PyVal.int 1] (by decide)⟩

/-- Claim C5: for every non-empty restriction whose first match (in store
enumeration order) is the link `l` — the unique link carrying its id — and
every substitution of at least 2 elements, `update` changes only that link:
its source and target become the substituted values (`[s, t]` for a
2-element substitution, `[_, s, t]` for a longer one), its id and position
are unchanged, every other link is untouched, the returned value is `l`'s
id, and the handler receives `before` = the pre-update link and `after` =
the post-update link. -/
theorem update_first_match :
    (∀ (st : Store) (r : List Int) (s t : PyVal) (l : Link)
      (ls pre post : List Link),
      r ≠ [] →
      filter_links (read_all_links st) (some r) = l :: ls →
      st.links = pre ++ l :: post →
      (∀ k ∈ pre, k.id ≠ l.id) →
      (∀ k ∈ post, k.id ≠ l.id) →
      ilinks_update (some r) (some [s, t]) st =
        (.ok l.id, ⟨pre ++ ⟨l.id, s, t⟩ :: post, st.nextId⟩,
         [⟨some l, some ⟨l.id, s, t⟩⟩]))
  ∧ (∀ (st : Store) (r : List Int) (s t u : PyVal) (rest : List PyVal)
      (l : Link) (ls pre post : List Link),
      r ≠ [] →
      filter_links (read_all_links st) (some r) = l :: ls →
      st.links = pre ++ l :: post →
      (∀ k ∈ pre, k.id ≠ l.id) →
      (∀ k ∈ post, k.id ≠ l.id) →
      ilinks_update (some r) (some (s :: t :: u :: rest)) st =
        (.ok l.id, ⟨pre ++ ⟨l.id, t, u⟩ :: post, st.nextId⟩,
         [⟨some l, some ⟨l.id, t, u⟩⟩])) := by
  constructor
  · intro st r s t l ls pre post hr hf hd hpre hpost
    exact ilinks_update_go st r s t s t [] l ls pre post hr hf hd hpre hpost rfl
  · intro st r s t u rest l ls pre post hr hf hd hpre hpost
    exact ilinks_update_go st r s t t u (u :: rest) l ls pre post hr hf hd hpre hpost rfl

/-- Witness for `update_first_match`: on a store holding the single link
`(1, 2, 3)`, `update([1], [7, 8])` rewrites it to `(1, 7, 8)`, returns id 1,
and the handler sees the old and new link. -/
theorem update_first_match_witness :
    (([1] : List Int) ≠ []) ∧
    ilinks_update (some [1]) (some [.int 7, .int 8]) ⟨[⟨1, .int 2, .int 3⟩], 2⟩ =
      (.ok 1, ⟨[⟨1, .int 7, .int 8⟩], 2⟩,
       [⟨some ⟨1, .int 2, .int 3⟩, some ⟨1, .int 7, .int 8⟩⟩]) :=
  ⟨by decide,
   update_first_match.1 ⟨[⟨1, .int 2, .int 3⟩], 2⟩ [1] (.int 7) (.int 8)
     ⟨1, .int 2, .int 3⟩ [] [] [] (by decide) rfl rfl (by simp) (by simp)⟩

/-- Claim C6: `delete` on a truthy restriction matching zero stored links
raises NotFound with the store unchanged (the total `count()` before equals
the one after); and in general, whenever `update` or `delete` fails
(InvalidArgument or NotFound), the store is returned unchanged — no link is
created, modified, or removed — and the handler is never invoked. -/
theorem failed_update_delete_no_mutation :
    (∀ (st : Store) (r : List Int), r ≠ [] →
      filter_links (read_all_links st) (some r) = [] →
      ilinks_delete (some r) st =
        (.error (.valueError ("No links found matching restriction")), st, []) ∧
      ilinks_count Option.none (ilinks_delete (some r) st).2.1 =
        ilinks_count Option.none st)
  ∧ (∀ (restriction : Option (List Int)) (st : Store) (e : PyErr),
      (ilinks_delete restriction st).1 = .error e →
      (ilinks_delete restriction st).2.1 = st ∧
      (ilinks_delete restriction st).2.2 = [])
  ∧ (∀ (restriction : Option (List Int)) (substitution : Option (List PyVal))
      (st : Store) (e : PyErr),
      (ilinks_update restriction substitution st).1 = .error e →
      (ilinks_update restriction substitution st).2.1 = st ∧
      (ilinks_update restriction substitution st).2.2 = []) := by
  refine ⟨?_, ilinks_delete_error_state, ilinks_update_error_state⟩
  intro st r hr hf
  obtain ⟨a, r', rfl⟩ : ∃ a r', r = a :: r' := by
    cases r with
    | nil => exact absurd rfl hr
    | cons a r' => exact ⟨a, r', rfl⟩
  have hdel : ilinks_delete (some (a :: r')) st =
      (.error (.valueError ("No links found matching restriction")), st, []) := by
    unfold ilinks_delete
    split <;> simp_all
  exact ⟨hdel, by rw [hdel]⟩

/-- Witness for `failed_update_delete_no_mutation`: deleting with
restriction `[1]` on the empty store raises NotFound and leaves the store
empty. -/
theorem failed_update_delete_no_mutation_witness :
    (([1] : List Int) ≠ []) ∧
    ilinks_delete (some [1]) ⟨[], 1⟩ =
      (.error (.valueError ("No links found matching restriction")), ⟨[], 1⟩, []) :=
  ⟨by decide, (failed_update_delete_no_mutation.1 ⟨[], 1⟩ [1] (by decide) rfl).1⟩

/-- Claim C8: for every 2-element list containing no dict anywhere (at any
nesting depth), `_create_sequence_from_list` creates exactly one link whose
source is the first element and whose target is the second, appends nothing
else, and returns that link's id; an empty list raises InvalidArgument. -/
theorem create_sequence_pair_base :
    (∀ (fuel : Nat) (a b : PyVal) (rm : RefMap) (st : Store),
      DictFree a → DictFree b →
      createSeqF (fuel + 1) [a, b] rm st =
        some (.ok (.int st.nextId, rm),
          ⟨st.links ++ [⟨st.nextId, a, b⟩], st.nextId + 1⟩))
  ∧ (∀ (fuel : Nat) (rm : RefMap) (st : Store),
      createSeqF (fuel + 1) [] rm st =
        some (.error (.valueError ("Cannot create sequence from empty list")), st)) := by
  refine ⟨fun fuel a b rm st ha hb => ?_, fun fuel rm st => rfl⟩
  have hnd : has_nested_dict [a, b] = false := by
    simp [has_nested_dict, dictFree_not_isDict ha, dictFree_not_isDict hb]
  simp [createSeqF, hnd, ilinks_create, create_link]

/-- Witness for `create_sequence_pair_base` at `[1, 2]` on a store whose
next id is 5. -/
theorem create_sequence_pair_base_witness :
    DictFree (.int 1) ∧ DictFree (.int 2) ∧
    createSeqF 1 [.int 1, .int 2] [] ⟨[], 5⟩ =
      some (.ok (.int 5, []), ⟨[⟨5, .int 1, .int 2⟩], 6⟩) :=
  ⟨DictFree.int 1, DictFree.int 2,
   create_sequence_pair_base.1 0 (.int 1) (.int 2) [] ⟨[], 5⟩
     (DictFree.int 1) (DictFree.int 2)⟩

/-- Claim C10: for every dict entry whose value is a single-element list of
a scalar, `create_from_nested_dict` creates no link (the store is returned
unchanged) and the reference map binds the label directly to that scalar
value, not to a link id. -/
theorem singleton_scalar_no_link (fuel : Nat) (label : String) (v : Int)
    (st : Store) :
    create_from_nested_dict (fuel + 1) [(label, .list [.int v])] st =
      some (.ok [(label, .int v)], st) := rfl

/-- Claim C2, counterexample: on the empty store,
`create_from_nested_dict({"1": [1, {"2": [5, 6]}, 3, 4]})` creates FOUR
links — the base pair `(5, 6)` and the three chain links of the fold
`1 → ref2 → 3 → 4` — not the three the claim states. -/
theorem create_from_nested_dict_example_not_three :
    create_from_nested_dict 10 exampleNestedDict ⟨[], 1⟩ =
      some (.ok [("2", .int 1), ("1", .int 4)],
        ⟨[⟨1, .int 5, .int 6⟩, ⟨2, .int 1, .int 1⟩, ⟨3, .int 2, .int 3⟩,
          ⟨4, .int 3, .int 4⟩], 5⟩) ∧
    ([⟨1, .int 5, .int 6⟩, ⟨2, .int 1, .int 1⟩, ⟨3, .int 2, .int 3⟩,
      ⟨4, .int 3, .int 4⟩] : List Link).length ≠
      ([] : List Link).length + 3 := ⟨rfl, by decide⟩

/-- Claim C2, amended: calling
`create_from_nested_dict({"1": [1, {"2": [5, 6]}, 3, 4]})` on any store
(with a positive next fresh id) returns a reference map with exactly the
keys `"1"` and `"2"`, each mapped to a positive link id, and increases the
number of links in the store by exactly FOUR (one base pair for
`{"2": [5, 6]}` and three chain links folding `1 → ref2 → 3 → 4`). -/
theorem create_from_nested_dict_example (fuel : Nat) (st : Store)
    (h : 0 < st.nextId) :
    create_from_nested_dict (fuel + 2) exampleNestedDict st =
      some (.ok [("2", .int st.nextId), ("1", .int (st.nextId + 3))],
        ⟨st.links ++
          [⟨st.nextId, .int 5, .int 6⟩,
           ⟨st.nextId + 1, .int 1, .int st.nextId⟩,
           ⟨st.nextId + 2, .int (st.nextId + 1), .int 3⟩,
           ⟨st.nextId + 3, .int (st.nextId + 2), .int 4⟩],
         st.nextId + 4⟩) ∧
    0 < st.nextId ∧ 0 < st.nextId + 3 ∧
    (st.links ++
      [⟨st.nextId, .int 5, .int 6⟩,
       ⟨st.nextId + 1, .int 1, .int st.nextId⟩,
       ⟨st.nextId + 2, .int (st.nextId + 1), .int 3⟩,
       ⟨st.nextId + 3, .int (st.nextId + 2), .int 4⟩] : List Link).length =
      st.links.length + 4 := by
  refine ⟨?_, h, by omega, by simp⟩
  simp [create_from_nested_dict, dictLoop, createSeqF, seqLoop, ilinks_create,
    create_link, dictSet, dictUpdate, has_nested_dict, exampleNestedDict,
    PyVal.isDict, List.append_assoc, Int.add_assoc]

/-- Witness for `create_from_nested_dict_example` on the empty store with
next id 1: the reference map is `{"2": 1, "1": 4}` and the store gains the
four links `(1,5,6)`, `(2,1,1)`, `(3,2,3)`, `(4,3,4)`. -/
theorem create_from_nested_dict_example_witness :
    (0 : Int) < 1 ∧
    (create_from_nested_dict 10 exampleNestedDict ⟨[], 1⟩ =
      some (.ok [("2", .int 1), ("1", .int 4)],
        ⟨[⟨1, .int 5, .int 6⟩, ⟨2, .int 1, .int 1⟩, ⟨3, .int 2, .int 3⟩,
          ⟨4, .int 3, .int 4⟩], 5⟩) ∧
     (0 : Int) < 1 ∧ (0 : Int) < 1 + 3 ∧
     ([⟨1, .int 5, .int 6⟩, ⟨2, .int 1, .int 1⟩, ⟨3, .int 2, .int 3⟩,
       ⟨4, .int 3, .int 4⟩] : List Link).length = ([] : List Link).length + 4) :=
  ⟨by decide, create_from_nested_dict_example 8 ⟨[], 1⟩ (by decide)⟩

theorem digChar_isDigit (n : Nat) : (digChar n).isDigit = true := by
  unfold digChar
  repeat' split
  all_goals decide

theorem digVal_digChar (n : Nat) (h : n < 10) : digVal (digChar n) = n := by
  interval_cases n <;> decide

theorem isDigit_facts (c : Char) (h : c.isDigit = true) :
    litChar c = true ∧ c ≠ '_' ∧ c ≠ '-' ∧ chDelta c = 0 ∧ pyIsSpace c = false := by
  have h1 : c ≠ '(' := fun e => by subst e; exact absurd h (by decide)
  have h2 : c ≠ ')' := fun e => by subst e; exact absurd h (by decide)
  have h3 : c ≠ ' ' := fun e => by subst e; exact absurd h (by decide)
  have h4 : c ≠ '\t' := fun e => by subst e; exact absurd h (by decide)
  have h5 : c ≠ '\n' := fun e => by subst e; exact absurd h (by decide)
  have h6 : c ≠ '\r' := fun e => by subst e; exact absurd h (by decide)
  have h7 : c ≠ '\x0b' := fun e => by subst e; exact absurd h (by decide)
  have h8 : c ≠ '\x0c' := fun e => by subst e; exact absurd h (by decide)
  have h9 : c ≠ '_' := fun e => by subst e; exact absurd h (by decide)
  have h10 : c ≠ '-' := fun e => by subst e; exact absurd h (by decide)
  refine ⟨?_, h9, h10, ?_, ?_⟩
  · simp [litChar, pyIsSpace, h1, h2, h3, h4, h5, h6, h7, h8]
  · simp [chDelta, h1, h2]
  · simp [pyIsSpace, h3, h4, h5, h6, h7, h8]

theorem natDigitsGo_digits (f : Nat) :
    ∀ (n : Nat) (acc : List Char), (∀ c ∈ acc, c.isDigit = true) →
      ∀ c ∈ natDigitsGo f n acc, c.isDigit = true := by
  induction f with
  | zero => intro n acc hacc c hc; exact hacc c hc
  | succ f ih =>
    intro n acc hacc c hc
    unfold natDigitsGo at hc
    split at hc
    · rcases List.mem_cons.mp hc with rfl | hc
      · exact digChar_isDigit n
      · exact hacc c hc
    · refine ih (n / 10) _ ?_ c hc
      intro d hd
      rcases List.mem_cons.mp hd with rfl | hd
      · exact digChar_isDigit _
      · exact hacc d hd

theorem natDigitsGo_ne_nil (f : Nat) :
    ∀ (n : Nat) (acc : List Char), acc ≠ [] → natDigitsGo f n acc ≠ [] := by
  induction f with
  | zero => intro n acc h; exact h
  | succ f ih =>
    intro n acc h
    unfold natDigitsGo
    split
    · simp
    · exact ih _ _ (by simp)

theorem natChars_ne_nil (n : Nat) : natChars n ≠ [] := by
  unfold natChars natDigitsGo
  split
  · simp
  · exact natDigitsGo_ne_nil _ _ _ (by simp)

theorem natDigitsGo_acc (f : Nat) :
    ∀ (n : Nat) (acc : List Char),
      natDigitsGo f n acc = natDigitsGo f n [] ++ acc := by
  induction f with
  | zero => intro n acc; rfl
  | succ f ih =>
    intro n acc
    unfold natDigitsGo
    split
    · rfl
    · rw [ih (n / 10) (digChar (n % 10) :: acc), ih (n / 10) [digChar (n % 10)]]
      simp

theorem natDigitsGo_fuel (f : Nat) :
    ∀ (f' n : Nat) (acc : List Char), 1 ≤ f → 1 ≤ f' → n < 10 ^ f → n < 10 ^ f' →
      natDigitsGo f n acc = natDigitsGo f' n acc := by
  induction f with
  | zero => intro f' n acc h; omega
  | succ f ih =>
    intro f' n acc _ hf' hn hn'
    obtain ⟨f'', rfl⟩ : ∃ f'', f' = f'' + 1 := ⟨f' - 1, by omega⟩
    unfold natDigitsGo
    split
    · rfl
    · rename_i hlt
      have h10 : 10 ≤ n := by omega
      have hfpos : 1 ≤ f := by
        by_contra hc
        have : f = 0 := by omega
        subst this
        simp at hn
        omega
      have hfpos' : 1 ≤ f'' := by
        by_contra hc
        have : f'' = 0 := by omega
        subst this
        simp at hn'
        omega
      have hd : n / 10 < 10 ^ f := by
        rw [Nat.div_lt_iff_lt_mul (by norm_num)]
        calc n < 10 ^ (f + 1) := hn
        _ = 10 ^ f * 10 := by ring
      have hd' : n / 10 < 10 ^ f'' := by
        rw [Nat.div_lt_iff_lt_mul (by norm_num)]
        calc n < 10 ^ (f'' + 1) := hn'
        _ = 10 ^ f'' * 10 := by ring
      exact ih f'' (n / 10) _ hfpos hfpos' hd hd'

theorem natDigitsGo_succ (f n : Nat) (acc : List Char) :
    natDigitsGo (f + 1) n acc =
      if n < 10 then digChar n :: acc
      else natDigitsGo f (n / 10) (digChar (n % 10) :: acc) := rfl

theorem natChars_rec (n : Nat) (h : 10 ≤ n) :
    natChars n = natChars (n / 10) ++ [digChar (n % 10)] := by
  unfold natChars
  rw [natDigitsGo_succ, if_neg (by omega)]
  rw [natDigitsGo_acc]
  congr 1
  have hp1 : n / 10 < 10 ^ (n / 10) := Nat.lt_pow_self (by norm_num) _
  refine natDigitsGo_fuel n (n / 10 + 1) (n / 10) [] (by omega) (by omega) ?_ ?_
  · have h2 : (10 : Nat) ^ (n / 10) ≤ 10 ^ n :=
      Nat.pow_le_pow_right (by norm_num) (by omega)
    omega
  · have h2 : (10 : Nat) ^ (n / 10) ≤ 10 ^ (n / 10 + 1) :=
      Nat.pow_le_pow_right (by norm_num) (by omega)
    omega

theorem natChars_small (n : Nat) (h : n < 10) : natChars n = [digChar n] := by
  unfold natChars natDigitsGo
  split
  · rfl
  · omega

theorem pyDigitsLoop_digit_step (acc : Nat) (c : Char) (cs : List Char)
    (h : c.isDigit = true) :
    pyDigitsLoop acc (c :: cs) = pyDigitsLoop (acc * 10 + digVal c) cs := by
  conv_lhs => unfold pyDigitsLoop
  rw [h]
  simp

theorem pyDigitsLoop_digits (n : Nat) :
    ∀ (acc : Nat) (rest : List Char),
      pyDigitsLoop acc (natChars n ++ rest) =
        pyDigitsLoop (acc * 10 ^ (natChars n).length + n) rest := by
  induction n using Nat.strong_induction_on with
  | _ n ih =>
    intro acc rest
    by_cases h : n < 10
    · rw [natChars_small n h]
      simp only [List.cons_append, List.nil_append]
      rw [pyDigitsLoop_digit_step _ _ _ (digChar_isDigit n)]
      rw [digVal_digChar n h]
      simp [pow_succ]
    · rw [natChars_rec n (by omega)]
      rw [List.append_assoc]
      rw [ih (n / 10) (by omega)]
      simp only [List.cons_append, List.nil_append]
      rw [pyDigitsLoop_digit_step _ _ _ (digChar_isDigit (n % 10))]
      rw [digVal_digChar _ (by omega)]
      rw [List.length_append]
      congr 1
      simp only [List.length_cons, List.length_nil]
      rw [pow_succ]
      have hmod : n / 10 * 10 + n % 10 = n := by omega
      calc (acc * 10 ^ (natChars (n / 10)).length + n / 10) * 10 + n % 10
          = acc * (10 ^ (natChars (n / 10)).length * 10) +
              (n / 10 * 10 + n % 10) := by ring
        _ = acc * (10 ^ (natChars (n / 10)).length * 10) + n := by rw [hmod]

theorem pyNatParse_cons (c : Char) (cs : List Char) :
    pyNatParse (c :: cs) =
      if c.isDigit then pyDigitsLoop (digVal c) cs else Option.none := rfl

theorem pyIntParse_neg (rest : List Char) :
    pyIntParse ('-' :: rest) = (pyNatParse rest).map (fun n => -(n : Int)) := rfl

theorem pyNatParse_natChars (n : Nat) : pyNatParse (natChars n) = some n := by
  rcases hc : natChars n with _ | ⟨c, cs⟩
  · exact absurd hc (natChars_ne_nil n)
  · have hdig : c.isDigit = true := by
      refine natDigitsGo_digits (n + 1) n [] (by simp) c ?_
      rw [show natDigitsGo (n + 1) n [] = natChars n from rfl, hc]
      exact List.mem_cons_self _ _
    have h0 : pyDigitsLoop 0 (natChars n) = some n := by
      have := pyDigitsLoop_digits n 0 []
      rw [List.append_nil] at this
      rw [this]
      simp [pyDigitsLoop]
    rw [hc] at h0
    rw [pyDigitsLoop_digit_step 0 c cs hdig] at h0
    rw [pyNatParse_cons, if_pos hdig]
    simpa using h0

theorem natChars_head_digit (n : Nat) :
    ∀ c ∈ natChars n, c.isDigit = true := by
  intro c hc
  exact natDigitsGo_digits (n + 1) n [] (by simp) c hc

theorem pyIntParse_intChars (i : Int) : pyIntParse (intChars i) = some i := by
  by_cases hneg : i < 0
  · unfold intChars
    rw [if_pos hneg, pyIntParse_neg, pyNatParse_natChars]
    have habs : ((i.natAbs : Int)) = -i := by omega
    simp [habs]
  · unfold intChars
    rw [if_neg hneg]
    rcases hc : natChars i.natAbs with _ | ⟨c, cs⟩
    · exact absurd hc (natChars_ne_nil _)
    · have hdig : c.isDigit = true := by
        refine natChars_head_digit i.natAbs c ?_
        rw [hc]; exact List.mem_cons_self _ _
      have hnp : pyNatParse (c :: cs) = some i.natAbs := by
        rw [← hc]; exact pyNatParse_natChars _
      have hcm : c ≠ '-' := (isDigit_facts c hdig).2.2.1
      have hcp : c ≠ '+' := fun e => by subst e; exact absurd hdig (by decide)
      unfold pyIntParse
      split
      · rename_i heq
        rw [List.cons.injEq] at heq
        exact absurd heq.1 hcm
      · rename_i heq
        rw [List.cons.injEq] at heq
        exact absurd heq.1 hcp
      · rw [hnp]
        have habs : ((i.natAbs : Int)) = i := by omega
        simp [habs]

theorem mem_of_head? {α : Type} {l : List α} {a : α} (h : l.head? = some a) :
    a ∈ l := by
  cases l with
  | nil => simp at h
  | cons x xs =>
    simp at h
    exact h ▸ List.mem_cons_self _ _

theorem mem_of_getLast? {α : Type} {l : List α} {a : α} (h : l.getLast? = some a) :
    a ∈ l := by
  have h' : l.reverse.head? = some a := by rwa [List.head?_reverse]
  exact List.mem_reverse.mp (mem_of_head? h')

theorem dropWhile_eq_self_of_head (p : Char → Bool) (cs : List Char)
    (h : ∀ c, cs.head? = some c → p c = false) : cs.dropWhile p = cs := by
  cases cs with
  | nil => rfl
  | cons c cs' =>
    rw [List.dropWhile_cons, h c rfl]
    simp

theorem pyStrip_eq_self (cs : List Char)
    (h1 : ∀ c, cs.head? = some c → pyIsSpace c = false)
    (h2 : ∀ c, cs.getLast? = some c → pyIsSpace c = false) :
    pyStrip cs = cs := by
  unfold pyStrip
  rw [dropWhile_eq_self_of_head _ cs h1]
  rw [dropWhile_eq_self_of_head _ cs.reverse
    (fun c hc => h2 c (by rwa [List.head?_reverse] at hc))]
  exact List.reverse_reverse cs

theorem pyStrip_all_nonspace (cs : List Char)
    (h : ∀ c ∈ cs, pyIsSpace c = false) : pyStrip cs = cs :=
  pyStrip_eq_self cs (fun c hc => h c (mem_of_head? hc))
    (fun c hc => h c (mem_of_getLast? hc))

theorem litChar_spec (c : Char) (h : litChar c = true) :
    c ≠ '(' ∧ c ≠ ')' ∧ pyIsSpace c = false ∧ chDelta c = 0 := by
  simp only [litChar, Bool.and_eq_true, Bool.not_eq_true'] at h
  obtain ⟨⟨h1, h2⟩, h3⟩ := h
  refine ⟨by simpa using h1, by simpa using h2, h3, ?_⟩
  simp only [chDelta, if_neg (by simpa using h1 : ¬c = '('),
    if_neg (by simpa using h2 : ¬c = ')')]

theorem convert_atom (n : Int) : convert (.atom n) = intChars n := rfl

theorem convert_list (l : List NVal) :
    convert (.list l) = '(' :: convertSeq l ++ [')'] := rfl

theorem convertSeq_one (v : NVal) : convertSeq [v] = convert v := rfl

theorem convertSeq_cons (v w : NVal) (vs : List NVal) :
    convertSeq (v :: w :: vs) = convert v ++ ' ' :: convertSeq (w :: vs) := rfl

theorem intChars_ne_nil (i : Int) : intChars i ≠ [] := by
  unfold intChars
  split
  · simp
  · exact natChars_ne_nil _

theorem intChars_lit (i : Int) : ∀ c ∈ intChars i, litChar c = true := by
  intro c hc
  unfold intChars at hc
  split at hc
  · rcases List.mem_cons.mp hc with rfl | hc
    · decide
    · exact (isDigit_facts c (natChars_head_digit _ c hc)).1
  · exact (isDigit_facts c (natChars_head_digit _ c hc)).1

theorem litChar_nonspace (c : Char) (h : litChar c = true) :
    pyIsSpace c = false := (litChar_spec c h).2.2.1

theorem getLast?_append_right {α : Type} (l₁ l₂ : List α) (h : l₂ ≠ []) :
    (l₁ ++ l₂).getLast? = l₂.getLast? := by
  simp only [← List.head?_reverse, List.reverse_append]
  rcases h2 : l₂.reverse with _ | ⟨c, r⟩
  · exact absurd (by simpa using h2) h
  · rfl

theorem convert_ends (v : NVal) (h : GoodPair v) :
    convert v ≠ [] ∧
    (∀ c, (convert v).head? = some c → pyIsSpace c = false) ∧
    (∀ c, (convert v).getLast? = some c → pyIsSpace c = false) := by
  cases h with
  | atom n =>
    rw [convert_atom]
    refine ⟨intChars_ne_nil n, ?_, ?_⟩
    · intro c hc
      exact litChar_nonspace c (intChars_lit n c (mem_of_head? hc))
    · intro c hc
      exact litChar_nonspace c (intChars_lit n c (mem_of_getLast? hc))
  | pair a b ha hb =>
    rw [convert_list]
    refine ⟨List.cons_ne_nil _ _, ?_, ?_⟩
    · intro c hc
      obtain rfl := Option.some.inj (show some '(' = some c from hc)
      rfl
    · intro c hc
      rw [show ('(' :: convertSeq [a, b] ++ [')'] : List Char) =
          (('(' :: convertSeq [a, b]) ++ [')']) from
          (List.cons_append _ _ _).symm] at hc
      rw [List.getLast?_concat] at hc
      obtain rfl := Option.some.inj hc
      rfl

theorem convertSeq_ne_nil (v : NVal) (vs : List NVal) (hv : GoodPair v) :
    convertSeq (v :: vs) ≠ [] := by
  cases vs with
  | nil =>
    rw [convertSeq_one]
    exact (convert_ends v hv).1
  | cons w ws =>
    rw [convertSeq_cons]
    intro hemp
    rcases List.append_eq_nil.mp hemp with ⟨_, h2⟩
    exact List.cons_ne_nil _ _ h2

theorem convertSeq_head (l : List NVal) (hg : ∀ v ∈ l, GoodPair v) :
    ∀ c, (convertSeq l).head? = some c → pyIsSpace c = false := by
  cases l with
  | nil => intro c hc; simp [convertSeq] at hc
  | cons v vs =>
    have hv := hg v (List.mem_cons_self _ _)
    cases vs with
    | nil =>
      rw [convertSeq_one]
      exact (convert_ends v hv).2.1
    | cons w ws =>
      rw [convertSeq_cons]
      intro c hc
      rcases hcv : convert v with _ | ⟨c0, r⟩
      · exact absurd hcv (convert_ends v hv).1
      · rw [hcv, List.cons_append, List.head?_cons] at hc
        exact (convert_ends v hv).2.1 c (by rw [hcv, List.head?_cons]; exact hc)

theorem convertSeq_getLast (l : List NVal) (hg : ∀ v ∈ l, GoodPair v) :
    ∀ c, (convertSeq l).getLast? = some c → pyIsSpace c = false := by
  induction l with
  | nil => intro c hc; simp [convertSeq] at hc
  | cons v vs ih =>
    have hv := hg v (List.mem_cons_self _ _)
    cases vs with
    | nil =>
      rw [convertSeq_one]
      exact (convert_ends v hv).2.2
    | cons w ws =>
      rw [convertSeq_cons]
      intro c hc
      have hg' : ∀ u ∈ w :: ws, GoodPair u :=
        fun u hu => hg u (List.mem_cons_of_mem v hu)
      have hne : convertSeq (w :: ws) ≠ [] :=
        convertSeq_ne_nil w ws (hg' w (List.mem_cons_self _ _))
      rw [getLast?_append_right _ _ (List.cons_ne_nil _ _)] at hc
      rw [show (' ' :: convertSeq (w :: ws) : List Char) =
          ([' '] ++ convertSeq (w :: ws)) from rfl] at hc
      rw [getLast?_append_right _ _ hne] at hc
      exact ih hg' c hc

theorem convertSeq_strip (l : List NVal) (hg : ∀ v ∈ l, GoodPair v) :
    pyStrip (convertSeq l) = convertSeq l :=
  pyStrip_eq_self _ (convertSeq_head l hg) (convertSeq_getLast l hg)

theorem chDelta_open : chDelta '(' = 1 := by decide

theorem chDelta_close : chDelta ')' = -1 := by decide

theorem chDelta_space : chDelta ' ' = 0 := by decide

theorem endDepth_cons (c : Char) (cs : List Char) (d : Int) :
    endDepth (c :: cs) d = endDepth cs (d + chDelta c) := rfl

theorem endDepth_append (a b : List Char) (d : Int) :
    endDepth (a ++ b) d = endDepth b (endDepth a d) := by
  simp [endDepth, List.foldl_append]

theorem neutral_append (a b : List Char) :
    ∀ d : Int, Neutral a d → Neutral b (endDepth a d) → Neutral (a ++ b) d := by
  induction a with
  | nil => intro d _ hb; exact hb
  | cons c cs ih =>
    intro d ha hb
    obtain ⟨h1, h2⟩ := ha
    exact ⟨h1, ih (d + chDelta c) h2 (by rwa [endDepth_cons] at hb)⟩

theorem neutral_nonparen (cs : List Char) (h : ∀ c ∈ cs, chDelta c = 0) :
    ∀ d : Int, (1 ≤ d → Neutral cs d) ∧ endDepth cs d = d := by
  induction cs with
  | nil => intro d; exact ⟨fun _ => trivial, rfl⟩
  | cons c cs' ih =>
    intro d
    have hc := h c (List.mem_cons_self _ _)
    have ih' := ih (fun u hu => h u (List.mem_cons_of_mem _ hu))
    constructor
    · intro hd
      show 1 ≤ d + chDelta c ∧ Neutral cs' (d + chDelta c)
      rw [hc, add_zero]
      exact ⟨hd, (ih' d).1 hd⟩
    · rw [endDepth_cons, hc, add_zero]
      exact (ih' d).2

theorem tok_neutral (v : NVal) (h : GoodPair v) :
    ∀ d : Int, 1 ≤ d → Neutral (convert v) d ∧ endDepth (convert v) d = d := by
  induction h with
  | atom n =>
    intro d hd
    have hnp : ∀ c ∈ convert (.atom n), chDelta c = 0 := by
      rw [convert_atom]
      intro c hc
      exact (litChar_spec c (intChars_lit n c hc)).2.2.2
    exact ⟨(neutral_nonparen _ hnp d).1 hd, (neutral_nonparen _ hnp d).2⟩
  | pair a b ha hb iha ihb =>
    intro d hd
    rw [convert_list]
    have hseq : convertSeq [a, b] = convert a ++ (' ' :: convert b) := rfl
    have iA := iha (d + 1) (by omega)
    have iB := ihb (d + 1) (by omega)
    have nSp : Neutral (' ' :: convert b) (d + 1) := by
      show 1 ≤ d + 1 + chDelta ' ' ∧ Neutral (convert b) (d + 1 + chDelta ' ')
      rw [chDelta_space, add_zero]
      exact ⟨by omega, iB.1⟩
    have eSp : endDepth (' ' :: convert b) (d + 1) = d + 1 := by
      rw [endDepth_cons, chDelta_space, add_zero]
      exact iB.2
    have nInner : Neutral (convertSeq [a, b]) (d + 1) := by
      rw [hseq]
      exact neutral_append _ _ _ iA.1 (by rw [iA.2]; exact nSp)
    have eInner : endDepth (convertSeq [a, b]) (d + 1) = d + 1 := by
      rw [hseq, endDepth_append, iA.2, eSp]
    constructor
    · show 1 ≤ d + chDelta '(' ∧
        Neutral (convertSeq [a, b] ++ [')']) (d + chDelta '(')
      rw [chDelta_open]
      refine ⟨by omega, ?_⟩
      refine neutral_append _ _ _ nInner ?_
      rw [eInner]
      show 1 ≤ d + 1 + chDelta ')' ∧ True
      rw [chDelta_close]
      exact ⟨by omega, trivial⟩
    · rw [List.cons_append, endDepth_cons, chDelta_open, endDepth_append,
        eInner, endDepth_cons, chDelta_close]
      show endDepth [] (d + 1 + -1) = d
      show d + 1 + -1 = d
      omega

theorem seq_neutral (l : List NVal) (hg : ∀ v ∈ l, GoodPair v) :
    ∀ d : Int, 1 ≤ d → Neutral (convertSeq l) d ∧ endDepth (convertSeq l) d = d := by
  induction l with
  | nil => intro d _; exact ⟨trivial, rfl⟩
  | cons v vs ih =>
    intro d hd
    have hv := hg v (List.mem_cons_self _ _)
    cases vs with
    | nil =>
      rw [convertSeq_one]
      exact tok_neutral v hv d hd
    | cons w ws =>
      rw [convertSeq_cons]
      have hA := tok_neutral v hv d hd
      have hRest := ih (fun u hu => hg u (List.mem_cons_of_mem _ hu)) d hd
      constructor
      · refine neutral_append _ _ d hA.1 ?_
        rw [hA.2]
        show 1 ≤ d + chDelta ' ' ∧ Neutral (convertSeq (w :: ws)) (d + chDelta ' ')
        rw [chDelta_space, add_zero]
        exact ⟨hd, hRest.1⟩
      · rw [endDepth_append, hA.2, endDepth_cons, chDelta_space, add_zero]
        exact hRest.2

theorem scanLoop_cons_eq (rec : List Char → Option (List NVal)) (c : Char)
    (cs : List Char) (res : List NVal) (cur : List Char) (d : Int) :
    scanLoop rec (c :: cs) res cur d =
      if c = '(' then scanLoop rec cs res (cur ++ ['(']) (d + 1)
      else if c = ')' then
        (if d - 1 = 0 ∧ ¬(pyStrip (cur ++ [')'])).isEmpty then
          match rec (pyStrip (cur ++ [')'])) with
          | Option.none => Option.none
          | some v => scanLoop rec cs (res ++ [.list v]) [] (d - 1)
        else scanLoop rec cs res (cur ++ [')']) (d - 1))
      else if c = ' ' ∧ d = 0 then
        (if (pyStrip cur).isEmpty then scanLoop rec cs res cur d
        else match pyIntParse (pyStrip cur) with
          | some n => scanLoop rec cs (res ++ [.atom n]) [] d
          | Option.none => scanLoop rec cs res [] d)
      else scanLoop rec cs res (cur ++ [c]) d := rfl

theorem scanLoop_open (rec : List Char → Option (List NVal)) (cs : List Char)
    (res : List NVal) (cur : List Char) (d : Int) :
    scanLoop rec ('(' :: cs) res cur d =
      scanLoop rec cs res (cur ++ ['(']) (d + 1) := by
  rw [scanLoop_cons_eq, if_pos rfl]

theorem scanLoop_other (rec : List Char → Option (List NVal)) (c : Char)
    (cs : List Char) (res : List NVal) (cur : List Char) (d : Int)
    (h1 : c ≠ '(') (h2 : c ≠ ')') (h3 : ¬(c = ' ' ∧ d = 0)) :
    scanLoop rec (c :: cs) res cur d = scanLoop rec cs res (cur ++ [c]) d := by
  rw [scanLoop_cons_eq, if_neg h1, if_neg h2, if_neg h3]

theorem scanLoop_close_noflush (rec : List Char → Option (List NVal))
    (cs : List Char) (res : List NVal) (cur : List Char) (d : Int)
    (h : ¬(d - 1 = 0 ∧ ¬(pyStrip (cur ++ [')'])).isEmpty)) :
    scanLoop rec (')' :: cs) res cur d =
      scanLoop rec cs res (cur ++ [')']) (d - 1) := by
  rw [scanLoop_cons_eq, if_neg (by decide : ¬(')' = '(')), if_pos rfl, if_neg h]

theorem scanLoop_close_flush (rec : List Char → Option (List NVal))
    (cs : List Char) (res : List NVal) (cur : List Char) (d : Int)
    (h0 : d - 1 = 0) (hne : ¬(pyStrip (cur ++ [')'])).isEmpty) :
    scanLoop rec (')' :: cs) res cur d =
      match rec (pyStrip (cur ++ [')'])) with
      | Option.none => Option.none
      | some v => scanLoop rec cs (res ++ [.list v]) [] (d - 1) := by
  rw [scanLoop_cons_eq, if_neg (by decide : ¬(')' = '(')), if_pos rfl,
    if_pos ⟨h0, hne⟩]

theorem scanLoop_space_skip (rec : List Char → Option (List NVal))
    (cs : List Char) (res : List NVal) (cur : List Char)
    (h : (pyStrip cur).isEmpty) :
    scanLoop rec (' ' :: cs) res cur 0 = scanLoop rec cs res cur 0 := by
  rw [scanLoop_cons_eq, if_neg (by decide : ¬(' ' = '(')),
    if_neg (by decide : ¬(' ' = ')')), if_pos ⟨rfl, rfl⟩, if_pos h]

theorem scanLoop_space_flush (rec : List Char → Option (List NVal))
    (cs : List Char) (res : List NVal) (cur : List Char)
    (hne : ¬(pyStrip cur).isEmpty) :
    scanLoop rec (' ' :: cs) res cur 0 =
      match pyIntParse (pyStrip cur) with
      | some n => scanLoop rec cs (res ++ [.atom n]) [] 0
      | Option.none => scanLoop rec cs res [] 0 := by
  rw [scanLoop_cons_eq, if_neg (by decide : ¬(' ' = '(')),
    if_neg (by decide : ¬(' ' = ')')), if_pos ⟨rfl, rfl⟩, if_neg hne]

theorem scanLoop_end (rec : List Char → Option (List NVal)) (res : List NVal)
    (cur : List Char) (d : Int) :
    scanLoop rec [] res cur d =
      if (pyStrip cur).isEmpty then some res
      else
        match pyIntParse (pyStrip cur) with
        | some n => some (res ++ [.atom n])
        | Option.none => some res := rfl

theorem scan_through (rec : List Char → Option (List NVal)) :
    ∀ (cs rest : List Char) (res : List NVal) (cur : List Char) (d : Int),
      Neutral cs d →
      scanLoop rec (cs ++ rest) res cur d =
        scanLoop rec rest res (cur ++ cs) (endDepth cs d) := by
  intro cs
  induction cs with
  | nil =>
    intro rest res cur d _
    simp [endDepth]
  | cons c cs' ih =>
    intro rest res cur d hN
    obtain ⟨h1, h2⟩ := hN
    rw [List.cons_append]
    by_cases hc1 : c = '('
    · subst hc1
      rw [chDelta_open] at h1 h2
      rw [scanLoop_open]
      rw [ih rest res (cur ++ ['(']) (d + 1) h2]
      rw [endDepth_cons, chDelta_open]
      simp [List.append_assoc]
    · by_cases hc2 : c = ')'
      · subst hc2
        rw [chDelta_close] at h1 h2
        rw [scanLoop_close_noflush _ _ _ _ _ (fun hcon => by omega)]
        rw [ih rest res (cur ++ [')']) (d - 1) (by
          rw [show d - 1 = d + -1 from by omega]
          exact h2)]
        rw [endDepth_cons, chDelta_close]
        rw [show d + -1 = d - 1 from by omega]
        simp [List.append_assoc]
      · have hc3 : ¬(c = ' ' ∧ d = 0) := by
          rintro ⟨rfl, rfl⟩
          rw [chDelta_space] at h1
          omega
        have hch : chDelta c = 0 := by simp [chDelta, hc1, hc2]
        rw [hch, add_zero] at h2
        rw [scanLoop_other _ _ _ _ _ _ hc1 hc2 hc3]
        rw [ih rest res (cur ++ [c]) d h2]
        rw [endDepth_cons, hch, add_zero]
        simp [List.append_assoc]

theorem scan_lit (rec : List Char → Option (List NVal)) :
    ∀ (cs : List Char), (∀ c ∈ cs, litChar c = true) →
      ∀ (rest : List Char) (res : List NVal) (cur : List Char),
        scanLoop rec (cs ++ rest) res cur 0 =
          scanLoop rec rest res (cur ++ cs) 0 := by
  intro cs
  induction cs with
  | nil =>
    intro _ rest res cur
    simp
  | cons c cs' ih =>
    intro h rest res cur
    have hc := litChar_spec c (h c (List.mem_cons_self _ _))
    rw [List.cons_append]
    rw [scanLoop_other _ _ _ _ _ _ hc.1 hc.2.1 (by
      rintro ⟨rfl, -⟩
      exact absurd hc.2.2.1 (by decide))]
    rw [ih (fun u hu => h u (List.mem_cons_of_mem _ hu)) rest res (cur ++ [c])]
    simp [List.append_assoc]

theorem pyStrip_group (inner : List Char) :
    pyStrip (('(' :: inner) ++ [')']) = ('(' :: inner) ++ [')'] := by
  apply pyStrip_eq_self
  · intro c hc
    obtain rfl := Option.some.inj (show some '(' = some c from hc)
    rfl
  · intro c hc
    rw [List.getLast?_concat] at hc
    obtain rfl := Option.some.inj hc
    rfl

theorem parseLN_succ (f : Nat) (s : List Char) :
    parseLN (f + 1) s =
      scanLoop (fun t => parseLN f t)
        (if (pyStrip s).head? == some '(' && (pyStrip s).getLast? == some ')' then
          pyStrip (((pyStrip s).drop 1).dropLast)
        else pyStrip s) [] [] 0 := rfl

theorem parse_group_step (f : Nat) (inner : List Char)
    (h2 : pyStrip inner = inner) :
    parseLN (f + 1) (('(' :: inner) ++ [')']) =
      scanLoop (fun t => parseLN f t) inner [] [] 0 := by
  rw [parseLN_succ, pyStrip_group]
  rw [List.getLast?_concat]
  rw [show (('(' :: inner) ++ [')'] : List Char).head? = some '(' from by
    rw [List.cons_append, List.head?_cons]]
  rw [if_pos (by decide :
    ((some '(' == some '(') && (some ')' == some ')')) = true)]
  rw [show ((('(' :: inner) ++ [')'] : List Char).drop 1).dropLast = inner from by
    rw [List.cons_append]
    rw [show (('(' :: (inner ++ [')']) : List Char).drop 1) = inner ++ [')'] from rfl]
    exact List.dropLast_concat]
  rw [h2]

theorem depth_list (l : List NVal) :
    NVal.depth (.list l) = NVal.depthList l + 1 := rfl

theorem depthList_cons (v : NVal) (vs : List NVal) :
    NVal.depthList (v :: vs) = max v.depth (NVal.depthList vs) := rfl

theorem depth_le_depthList (l : List NVal) (v : NVal) (hv : v ∈ l) :
    NVal.depth v ≤ NVal.depthList l := by
  induction l with
  | nil => simp at hv
  | cons w ws ih =>
    rcases List.mem_cons.mp hv with rfl | hv
    · rw [depthList_cons]
      exact le_max_left _ _
    · rw [depthList_cons]
      exact le_trans (ih hv) (le_max_right _ _)

theorem scan_seq :
    ∀ (f : Nat) (items : List NVal),
      (∀ v ∈ items, GoodPair v) →
      (∀ v ∈ items, NVal.depth v ≤ f) →
      ∀ res : List NVal,
        scanLoop (fun t => parseLN f t) (convertSeq items) res [] 0 =
          some (res ++ items) := by
  intro f
  induction f using Nat.strong_induction_on with
  | _ f ihf =>
    intro items
    induction items with
    | nil =>
      intro _ _ res
      rw [show convertSeq [] = [] from rfl, scanLoop_end]
      simp [pyStrip]
    | cons v vs ihl =>
      intro hg hd res
      have hv : GoodPair v := hg v (List.mem_cons_self _ _)
      have hg' : ∀ u ∈ vs, GoodPair u :=
        fun u hu => hg u (List.mem_cons_of_mem _ hu)
      have hd' : ∀ u ∈ vs, NVal.depth u ≤ f :=
        fun u hu => hd u (List.mem_cons_of_mem _ hu)
      cases hv with
      | atom n =>
        have hlit : ∀ c ∈ convert (.atom n), litChar c = true := by
          rw [convert_atom]
          exact intChars_lit n
        have hstrip : pyStrip (convert (.atom n)) = convert (.atom n) :=
          pyStrip_all_nonspace _ (fun c hc => litChar_nonspace c (hlit c hc))
        have hparse : pyIntParse (pyStrip (convert (.atom n))) = some n := by
          rw [hstrip, convert_atom]
          exact pyIntParse_intChars n
        have hne : ¬(pyStrip (convert (.atom n))).isEmpty = true := by
          rw [hstrip, convert_atom]
          simp only [List.isEmpty_iff]
          exact intChars_ne_nil n
        cases vs with
        | nil =>
          rw [convertSeq_one]
          rw [show convert (.atom n) = convert (.atom n) ++ [] from
            (List.append_nil _).symm]
          rw [scan_lit _ _ hlit [] res []]
          simp only [List.nil_append]
          rw [scanLoop_end, if_neg hne, hparse]
        | cons w ws =>
          rw [convertSeq_cons]
          rw [scan_lit _ _ hlit (' ' :: convertSeq (w :: ws)) res []]
          simp only [List.nil_append]
          rw [scanLoop_space_flush _ _ _ _ hne, hparse]
          show scanLoop _ (convertSeq (w :: ws)) (res ++ [NVal.atom n]) [] 0 = _
          rw [ihl hg' hd' (res ++ [NVal.atom n])]
          simp
      | pair a b ha hb =>
        have hab : ∀ u ∈ [a, b], GoodPair u := by
          intro u hu
          rcases List.mem_cons.mp hu with rfl | hu
          · exact ha
          · rcases List.mem_cons.mp hu with rfl | hu
            · exact hb
            · simp at hu
        have hdepth_v : NVal.depth (.list [a, b]) ≤ f :=
          hd _ (List.mem_cons_self _ _)
        obtain ⟨f', rfl⟩ : ∃ f', f = f' + 1 := by
          refine ⟨f - 1, ?_⟩
          have h1 : 1 ≤ NVal.depth (.list [a, b]) := by
            rw [depth_list]
            omega
          omega
        have hdab : ∀ u ∈ [a, b], NVal.depth u ≤ f' := by
          intro u hu
          have h1 : NVal.depth u ≤ NVal.depthList [a, b] :=
            depth_le_depthList _ _ hu
          rw [depth_list] at hdepth_v
          omega
        have hseq_strip : pyStrip (convertSeq [a, b]) = convertSeq [a, b] :=
          convertSeq_strip _ hab
        have hparse_group :
            parseLN (f' + 1) (('(' :: convertSeq [a, b]) ++ [')']) =
              some [a, b] := by
          rw [parse_group_step f' _ hseq_strip]
          rw [ihf f' (by omega) [a, b] hab hdab []]
          simp
        have hgrp_scan : ∀ (rest' : List Char) (res' : List NVal),
            scanLoop (fun t => parseLN (f' + 1) t)
                (convert (.list [a, b]) ++ rest') res' [] 0 =
              scanLoop (fun t => parseLN (f' + 1) t) rest'
                (res' ++ [.list [a, b]]) [] 0 := by
          intro rest' res'
          rw [convert_list]
          simp only [List.cons_append, List.append_assoc, List.nil_append,
            List.singleton_append]
          rw [scanLoop_open]
          simp only [List.nil_append]
          rw [show (0 : Int) + 1 = 1 from by norm_num]
          rw [scan_through _ _ _ _ _ _ (seq_neutral [a, b] hab 1 (by norm_num)).1]
          rw [(seq_neutral [a, b] hab 1 (by norm_num)).2]
          rw [show (['('] ++ convertSeq [a, b] : List Char) =
            '(' :: convertSeq [a, b] from rfl]
          rw [scanLoop_close_flush _ _ _ _ _ (by norm_num) (by
            rw [show ('(' :: convertSeq [a, b] ++ [')'] : List Char) =
              ('(' :: convertSeq [a, b]) ++ [')'] from rfl]
            rw [pyStrip_group]
            simp)]
          rw [show ('(' :: convertSeq [a, b] ++ [')'] : List Char) =
            ('(' :: convertSeq [a, b]) ++ [')'] from rfl]
          rw [pyStrip_group]
          rw [hparse_group]
          show scanLoop _ rest' (res' ++ [NVal.list [a, b]]) [] (1 - 1) = _
          norm_num
        cases vs with
        | nil =>
          rw [convertSeq_one]
          have hh := hgrp_scan [] res
          rw [List.append_nil] at hh
          rw [hh, scanLoop_end]
          simp [pyStrip]
        | cons w ws =>
          rw [convertSeq_cons]
          rw [hgrp_scan (' ' :: convertSeq (w :: ws)) res]
          rw [scanLoop_space_skip _ _ _ _ (by rfl)]
          rw [ihl hg' hd' (res ++ [NVal.list [a, b]])]
          simp

/-- Claim C1: for every finite nested list `L` whose elements are 2-element
sublists of integers (no labeled maps, any nesting depth),
`parse_links_notation ( to_links_notation L) = L` — stated with the parser's
fuel parameter, which models the Python recursion depth: any fuel exceeding
the nesting depth of `L` yields exactly `L`.  In particular
`to_links_notation [[1,2],[3,4]] = "((1 2) (3 4))"` and
`parse_links_notation "((1 2) (3 4))" = [[1,2],[3,4]]`. -/
theorem parse_to_links_notation_roundtrip :
    (∀ (L : List NVal) (f : Nat),
      (∀ v ∈ L, ∃ a b, v = NVal.list [a, b] ∧ GoodPair a ∧ GoodPair b) →
      NVal.depthList L < f →
      parseLN f ( to_links_notation L) = some L)
  ∧ to_links_notation [.list [.atom 1, .atom 2], .list [.atom 3, .atom 4]] =
      "((1 2) (3 4))".toList
  ∧ parseLN 15 "((1 2) (3 4))".toList =
      some [.list [.atom 1, .atom 2], .list [.atom 3, .atom 4]] := by
  refine ⟨?_, rfl, rfl⟩
  intro L f hL hdepth
  have hg : ∀ v ∈ L, GoodPair v := by
    intro v hv
    obtain ⟨a, b, rfl, ha, hb⟩ := hL v hv
    exact GoodPair.pair a b ha hb
  obtain ⟨f', rfl⟩ : ∃ f', f = f' + 1 := ⟨f - 1, by omega⟩
  have hdd : ∀ v ∈ L, NVal.depth v ≤ f' := by
    intro v hv
    have h1 := depth_le_depthList L v hv
    omega
  rw [show to_links_notation L = ('(' :: convertSeq L) ++ [')'] from rfl]
  rw [parse_group_step f' _ (convertSeq_strip L hg)]
  rw [scan_seq f' L hg hdd []]
  simp

/-- Witness for `parse_to_links_notation_roundtrip` at `L = [[1, 2]]` with
fuel 2. -/
theorem parse_to_links_notation_roundtrip_witness :
    (∀ v ∈ [NVal.list [.atom 1, .atom 2]],
      ∃ a b, v = NVal.list [a, b] ∧ GoodPair a ∧ GoodPair b) ∧
    NVal.depthList [NVal.list [.atom 1, .atom 2]] < 2 ∧
    parseLN 2 ( to_links_notation [NVal.list [.atom 1, .atom 2]]) =
      some [NVal.list [.atom 1, .atom 2]] := by
  refine ⟨?_, by decide, ?_⟩
  · intro v hv
    rcases List.mem_cons.mp hv with rfl | hv
    · exact ⟨.atom 1, .atom 2, rfl, GoodPair.atom 1, GoodPair.atom 2⟩
    · simp at hv
  · exact parse_to_links_notation_roundtrip.1 [NVal.list [.atom 1, .atom 2]] 2
      (by
        intro v hv
        rcases List.mem_cons.mp hv with rfl | hv
        · exact ⟨.atom 1, .atom 2, rfl, GoodPair.atom 1, GoodPair.atom 2⟩
        · simp at hv)
      (by decide)

/-- Claim C7: during `parse_links_notation`, every whitespace-delimited
token at paren depth 0 that fails integer parsing is silently dropped — at a
depth-0 space the result list is unchanged and no error is raised, and a
trailing failing token at end of input is likewise dropped.  Consequently
parsing the labeled write form yields a plain nested list with the `label:`
tokens absent: the serialized `{"1": [1, {"2": [5, 6]}, 3, 4]}` parses back
as the plain list `[[1, [5, 6], 3, 4]]`. -/
theorem parse_drops_non_integer_tokens :
    (∀ (rec : List Char → Option (List NVal)) (cs : List Char)
      (res : List NVal) (cur : List Char),
      pyStrip cur ≠ [] →
      pyIntParse (pyStrip cur) = Option.none →
      scanLoop rec (' ' :: cs) res cur 0 = scanLoop rec cs res [] 0)
  ∧ (∀ (rec : List Char → Option (List NVal)) (res : List NVal)
      (cur : List Char),
      pyIntParse (pyStrip cur) = Option.none →
      scanLoop rec [] res cur 0 = some res)
  ∧ parseLN 15 (to_links_notation_with_refs exampleNestedDict) =
      some [.list [.atom 1, .list [.atom 5, .atom 6], .atom 3, .atom 4]] := by
  refine ⟨?_, ?_, rfl⟩
  · intro rec cs res cur hne hfail
    rw [scanLoop_space_flush _ _ _ _ (by
      simp only [List.isEmpty_iff]
      exact hne)]
    rw [hfail]
  · intro rec res cur hfail
    rw [scanLoop_end]
    by_cases he : (pyStrip cur).isEmpty
    · rw [if_pos he]
    · rw [if_neg he, hfail]

/-- Witness for `parse_drops_non_integer_tokens` at the failing token
`"1:"` before a space. -/
theorem parse_drops_non_integer_tokens_witness :
    (pyStrip ("1:".toList) ≠ []) ∧
    (pyIntParse (pyStrip ("1:".toList)) = Option.none) ∧
    scanLoop (fun _ => Option.none) (' ' :: "2".toList) [] "1:".toList 0 =
      scanLoop (fun _ => Option.none) "2".toList [] [] 0 :=
  ⟨by decide, by decide,
   parse_drops_non_integer_tokens.1 (fun _ => Option.none) "2".toList []
     "1:".toList (by decide) (by decide)⟩

/-- Claim C9 (refuting totality): on the input `"x(1 2)"` the parser
recurses on an identical string — the depth-0 `')'` flushes the buffer
`"x(1 2)"`, whose stripped form is the whole input again — so
`parse_links_notation` never terminates (in Python, unbounded recursion
ending in `RecursionError`); in the fuel model the recursion fails to
complete within every fuel bound. -/
theorem parse_links_notation_diverges :
    ∀ f : Nat, parseLN f ("x(1 2)".toList) = Option.none := by
  have key : ∀ (g : List Char → Option (List NVal)),
      g ("x(1 2)".toList) = Option.none →
      scanLoop g ("x(1 2)".toList) [] [] 0 = Option.none := by
    intro g hg
    show (match g ['x', '(', '1', ' ', '2', ')'] with
          | Option.none => (Option.none : Option (List NVal))
          | some v => scanLoop g [] [NVal.list v] [] 0) = Option.none
    rw [show (['x', '(', '1', ' ', '2', ')'] : List Char) = "x(1 2)".toList
      from by decide]
    rw [hg]
  intro f
  induction f with
  | zero => rfl
  | succ f ih =>
    have h1 : parseLN (f + 1) ("x(1 2)".toList) =
        scanLoop (fun t => parseLN f t) "x(1 2)".toList [] [] 0 := rfl
    rw [h1]
    exact key _ ih
